import Mathlib

/-!
Verification development for the `real-router` client-side routing module
(`src/router.tsx`).  The pure route-tree computations (path merging, hierarchy
map compilation, matching, router-state reconstruction) are embedded directly;
the asynchronous guard/resolver preload pipeline is embedded as a virtual-clock
trace model in which each external guard or resolver call is described by its
duration, settlement outcome and whether it invokes the `redirect` callback.
The low-level path-template compiler (`path-to-regexp`) is an external
collaborator and is modelled as an oracle function from a pathname and a
template to an optional parameter map, exactly the contract the module uses.
-/

namespace RealRouter

/-! ### Path merging (`mergePaths`, router.tsx lines 135-146)

JavaScript strings are modelled as lists of characters.  `charAt` of an
out-of-range index yields the empty string in JavaScript, which is never equal
to a slash, so the `getLast?`/`head?` comparisons below are faithful for the
empty string as well. -/

def mergePaths (left right : List Char) : List Char :=
  let leftSlash := left.getLast? == some '/'
  let rightSlash := right.head? == some '/'
  if leftSlash && rightSlash then
    left ++ right.tail
  else if (leftSlash && !rightSlash) || (!leftSlash && rightSlash) then
    left ++ right
  else
    left ++ '/' :: right

/-- The left segment with one trailing slash removed, when it ends with one. -/
def stripTrailingSlash (left : List Char) : List Char :=
  if left.getLast? == some '/' then left.dropLast else left

/-- The right segment with one leading slash removed, when it starts with one. -/
def stripLeadingSlash (right : List Char) : List Char :=
  if right.head? == some '/' then right.tail else right

/-- Path merging lifted back to `String` for use on route templates. -/
def mergePathsS (left right : String) : String :=
  String.mk (mergePaths left.data right.data)

/-! ### Route tree (router.tsx lines 61-98)

A route carries a stable id, a path template, its guards and resolver groups
and optionally a list of children (`children` being absent and being present
are distinct states, as in the source).  For the pure state computations only
the number of guards and the number of resolver groups is observable, so they
are embedded as counts; the behavioural preload model below keeps full
descriptions. -/

inductive Route where
  | mk (id matchT : String) (guards resolvers : Nat) (children : Option (List Route))

def Route.id : Route → String
  | .mk i _ _ _ _ => i

def Route.matchT : Route → String
  | .mk _ m _ _ _ => m

def Route.guards : Route → Nat
  | .mk _ _ g _ _ => g

def Route.resolvers : Route → Nat
  | .mk _ _ _ r _ => r

def Route.children : Route → Option (List Route)
  | .mk _ _ _ _ c => c

/-- Function `needsPreloading` (router.tsx lines 178-183): a route needs preloading
iff it declares at least one guard or at least one resolver group. -/
def needsPreloading (r : Route) : Bool :=
  decide (0 < r.guards) || decide (0 < r.resolvers)

/-- Type `RouteState` (router.tsx lines 94-98).  `resolvedData` is an optional
association list: `none` models the JavaScript value `undefined`, `some l`
models an object with the fields of `l` (values are abstracted as `Nat`). -/
structure RouteState where
  loading : Bool
  resolvedData : Option (List (String × Nat))
  completed : Bool
deriving DecidableEq, Repr

/-! ### JavaScript object maps

String-keyed JavaScript objects are modelled as association lists in key
insertion order.  Assigning to an existing key keeps the key's original
position but replaces its value; assigning a new key appends it.  -/

def lookupS : List (String × α) → String → Option α
  | [], _ => none
  | (k2, v) :: rest, k => if k2 == k then some v else lookupS rest k

def jsInsert (m : List (String × α)) (k : String) (v : α) : List (String × α) :=
  if m.any (fun e => e.1 == k) then
    m.map (fun e => if e.1 == k then (k, v) else e)
  else
    m ++ [(k, v)]

/-! ### Hierarchy map compilation (`buildHierarchyMap`, router.tsx lines 188-203)

The source iterates the route list, inserting (into one shared object) first
every entry of the recursively built child map with the parent template
merged in front and the parent id prepended to the hierarchy, then the
route's own `(match, [id])` entry.  `rawInserts` is the exact sequence of
insertions performed, and `buildHierarchyMap` replays it with JavaScript
object-assignment semantics. -/

def rawInserts : List Route → List (String × List String)
  | [] => []
  | .mk id mt _g _rv children :: rest =>
      (match children with
       | some cs =>
           ((rawInserts cs).foldl (fun m e => jsInsert m e.1 e.2) []).map
             (fun e => (mergePathsS mt e.1, id :: e.2))
       | none => []) ++ (mt, [id]) :: rawInserts rest
termination_by l => sizeOf l

def buildHierarchyMap (routes : List Route) : List (String × List String) :=
  (rawInserts routes).foldl (fun m e => jsInsert m e.1 e.2) []

/-- Modelled from the spec: the declaration-traversal-order list of
`(merged template, hierarchy)` entries, one per declared route, with no
key collapsing.  This is the reference order for the "first declared, first
tried" tie-break rule; `buildHierarchyMap` coincides with it exactly when
all merged templates are pairwise distinct. -/
def declEntries : List Route → List (String × List String)
  | [] => []
  | .mk id mt _g _rv children :: rest =>
      (match children with
       | some cs =>
           (declEntries cs).map (fun e => (mergePathsS mt e.1, id :: e.2))
       | none => []) ++ (mt, [id]) :: declEntries rest
termination_by l => sizeOf l

/-- All route ids of a tree, in preorder. -/
def routeIds : List Route → List String
  | [] => []
  | .mk id _ _ _ children :: rest =>
      id :: ((match children with
              | some cs => routeIds cs
              | none => []) ++ routeIds rest)
termination_by l => sizeOf l

/-! ### Matching (`matchHierarchy`, router.tsx lines 152-173)

The path-template matcher (`matchesRegex` / `path-to-regexp`) is an external
pure collaborator, modelled by an oracle from `(path, template)` to an
optional parameter list.  The sentinel `"*"` template is special-cased
before the oracle, exactly as in the source, and matches with `null`
parameters. -/

def Oracle : Type := String → String → Option (List (String × String))

def matchHierarchy (path : String) (m : List (String × List String))
    (oracle : Oracle) : List String × Option (List (String × String)) :=
  match m with
  | [] => ([], none)
  | (matchPath, hierarchy) :: rest =>
      if matchPath == "*" then (hierarchy, none)
      else
        match oracle path matchPath with
        | some params => (hierarchy, some params)
        | none => matchHierarchy path rest oracle

/-- Whether a map entry's template accepts a path (the wildcard or an oracle
match). -/
def templMatches (path t : String) (oracle : Oracle) : Bool :=
  t == "*" || (oracle path t).isSome

/-- The parameters `matchHierarchy` reports for an accepting template. -/
def entryParams (path t : String) (oracle : Oracle) :
    Option (List (String × String)) :=
  if t == "*" then none else oracle path t

/-- A concrete oracle used for closed examples: a template matches exactly
itself, extracting no parameters. -/
def eqOracle : Oracle := fun path tmpl => if path == tmpl then some [] else none

/-! ### Hierarchy to route list (`mapHierarchyToRoutes`, router.tsx lines 317-342)

The source shifts the head id, scans the whole route list (without early
exit), pushes every route whose id equals the head, throws when the tree
shape and the remaining hierarchy disagree, and recurses into the children
with the remaining hierarchy.  Thrown errors are modelled with `Except`. -/

def mapHierarchyToRoutes : List String → List Route → Except String (List Route)
  | [], _ => .ok []
  | _ :: _, [] => .ok []
  | id :: rest, .mk rid mt g rv children :: rs =>
      if rid == id then
        match children, rest with
        | some _, [] =>
            .error "Hierarchy does not match routes object: route has children and no hierarchy remains"
        | none, _ :: _ =>
            .error "Hierarchy does not match routes object: route has no children and hierarchy remains"
        | some cs, r1 :: rrest =>
            match mapHierarchyToRoutes (r1 :: rrest) cs with
            | .error e => .error e
            | .ok childRoutes =>
                match mapHierarchyToRoutes (id :: rest) rs with
                | .error e => .error e
                | .ok tailRoutes => .ok (.mk rid mt g rv children :: (childRoutes ++ tailRoutes))
        | none, [] =>
            match mapHierarchyToRoutes (id :: rest) rs with
            | .error e => .error e
            | .ok tailRoutes => .ok (.mk rid mt g rv children :: tailRoutes)
      else
        mapHierarchyToRoutes (id :: rest) rs
termination_by _ l => sizeOf l

/-- A hierarchy that can be located in a route tree: its head is the id of a
route of the list and its tail (when nonempty) can be located in that
route's children.  Every value stored in the compiled hierarchy map is of
this shape. -/
def ValidH : List String → List Route → Prop
  | [], _ => False
  | id :: rest, routes =>
      ∃ r, r ∈ routes ∧ r.id = id ∧
        (rest = [] ∨ ∃ cs, r.children = some cs ∧ ValidH rest cs)

/-! ### Router state reconstruction (`routerStateFromLocation`, router.tsx
lines 234-269) -/

/-- The fresh `RouteState` initialized for a route entering the hierarchy. -/
def freshState (r : Route) : RouteState :=
  { loading := needsPreloading r, resolvedData := some [], completed := false }

/-- The new `routeStates` object: every previous entry whose id is still in
the hierarchy is copied over (in previous insertion order), then a fresh
entry is appended for every hierarchy route whose id is not present yet. -/
def routeStatesFrom (previous : List (String × RouteState)) (hierarchy : List String)
    (routeList : List Route) : List (String × RouteState) :=
  let copied := previous.filter (fun p => hierarchy.contains p.1)
  routeList.foldl
    (fun acc r =>
      if acc.any (fun p => p.1 == r.id) then acc
      else acc ++ [(r.id, freshState r)])
    copied

/-- The observable part of the recomputed `RouterState`: the matched
hierarchy, its parameters and the per-route state map. -/
structure RouterStateM where
  hierarchy : List String
  params : Option (List (String × String))
  routeStates : List (String × RouteState)
deriving DecidableEq, Repr

def routerStateFromLocation (routes : List Route) (pathname : String)
    (oracle : Oracle) (previous : Option (List (String × RouteState))) :
    Except String RouterStateM :=
  let hierarchyMap := buildHierarchyMap routes
  let cm := matchHierarchy pathname hierarchyMap oracle
  match mapHierarchyToRoutes cm.1 routes with
  | .error e => .error e
  | .ok routeList =>
      .ok { hierarchy := cm.1
            params := cm.2
            routeStates := routeStatesFrom (previous.getD []) cm.1 routeList }

/-! ### Concrete route trees for closed examples -/

/-- A previous route-state map holding an in-flight state for `"A"` and a
completed state for `"B"`. -/
def demoPrev : List (String × RouteState) :=
  [("A", { loading := true, resolvedData := some [("k", 7)], completed := false }),
   ("B", { loading := false, resolvedData := some [], completed := true })]

/-- A single route with no guards and no resolver groups. -/
def soloRoute : List Route := [Route.mk "A" "/a" 0 0 none]

/-- Two sibling routes declaring the identical template `"/x"`. -/
def dupRoutes : List Route := [Route.mk "A" "/x" 0 0 none, Route.mk "B" "/x" 0 0 none]

/-- Two sibling routes with distinct templates. -/
def abRoutes : List Route := [Route.mk "A" "/a" 0 0 none, Route.mk "B" "/b" 0 0 none]

/-! ### The preload pipeline (`cancellablePromise`, `preloadRoute`,
`preloadPath`, router.tsx lines 114-129 and 344-418)

The pipeline is embedded as a virtual-clock trace model.  Each external
guard or resolver call is described by a behaviour record: how long it takes
to settle (`dur` virtual ticks after its invocation), whether it fulfills or
rejects, and whether it invokes the `redirect` callback while running.
Microtask latencies are abstracted away: a handler chained on a promise runs
at the promise's settlement time. -/

/-- The behaviour of one guard call. -/
structure GuardBeh where
  dur : Nat
  ok : Bool
  redirects : Bool
deriving DecidableEq, Repr

/-- The trace of the sequential guard chain
`(route.guards || []).reduce((prom, guard) => prom.then(() => guard(...)), Promise.resolve())`
(router.tsx lines 350-353): `events` records `(invocation, settlement)`
times of the guards that actually run, `settle` when and `ok` how the chain
settles, and `redirected` whether any guard that ran called `redirect`. -/
structure ChainTrace where
  events : List (Nat × Nat)
  settle : Nat
  ok : Bool
  redirected : Bool
deriving DecidableEq, Repr

/-- Running the guard chain from time `t`: each guard is invoked when the
previous guard's promise fulfills; a rejection stops the chain (`then` never
invokes the next continuation), but a `redirect` call has no effect on the
chain's control flow. -/
def runGuards : List GuardBeh → Nat → ChainTrace
  | [], t => { events := [], settle := t, ok := true, redirected := false }
  | g :: gs, t =>
      if g.ok then
        let tr := runGuards gs (t + g.dur)
        { events := (t, t + g.dur) :: tr.events
          settle := tr.settle
          ok := tr.ok
          redirected := g.redirects || tr.redirected }
      else
        { events := [(t, t + g.dur)], settle := t + g.dur, ok := false,
          redirected := g.redirects }

/-- The behaviour of one resolver call: `result = some v` fulfills with `v`,
`result = none` rejects. -/
structure ResolverBeh where
  dur : Nat
  result : Option Nat
  redirects : Bool
deriving DecidableEq, Repr

/-- How a promise settles: fulfilled with a value (for the preload chain, an
optional data object, `none` modelling `undefined`), or rejected. -/
inductive SettleResult where
  | fulfilled (data : Option (List (String × Nat)))
  | rejected
deriving DecidableEq, Repr

/-- A group promise (`Promise.all` of one resolver group) settles when its slowest member
settles (immediately for an empty group). -/
def groupDur (g : List (String × ResolverBeh)) : Nat :=
  (g.map (fun e => e.2.dur)).foldr max 0

/-- The `resolvedData` object one group's `Promise.all(...).then(() => resolvedData)`
fulfills with, or `none` when some resolver of the group rejects.  The keys
of a JavaScript object literal are distinct, so recording the fields in
declaration order instead of settlement order yields the same object. -/
def groupData (g : List (String × ResolverBeh)) : Option (List (String × Nat)) :=
  if g.all (fun e => e.2.result.isSome) then
    some (g.map (fun e => (e.1, e.2.result.getD 0)))
  else none

/-- The resolver chain
`(route.resolvers || []).reduce((prom, resolverObject) => {...}, Promise.resolve())`
(router.tsx lines 355-364).  The reduce callback never uses its accumulator
`prom`: it synchronously invokes every resolver of its group and returns that
group's own `Promise.all` chain.  The reduce therefore evaluates the callback
for every group immediately when `preloadRoute` runs, and its result is just
the last group's promise — or `Promise.resolve()` (value `undefined`) when
there are no groups.  Returned: duration until settlement (measured from the
`preloadRoute` call) and the settlement. -/
def resolveChain (resolvers : List (List (String × ResolverBeh))) : Nat × SettleResult :=
  resolvers.foldl
    (fun _prom g =>
      (groupDur g,
       match groupData g with
       | some d => SettleResult.fulfilled (some d)
       | none => SettleResult.rejected))
    (0, SettleResult.fulfilled none)

/-- Every resolver of every group is invoked synchronously while
`preloadRoute` executes, i.e. at the call time `t0`: the reduce callback runs
for each group during the reduce itself and `Object.entries(resolverObject).map`
calls each resolver right away. -/
def resolverInvocations (resolvers : List (List (String × ResolverBeh)))
    (t0 : Nat) : List (String × Nat) :=
  resolvers.foldl (fun acc g => acc ++ g.map (fun e => (e.1, t0))) []

/-- Whether the `isCancelled` flag of `cancellablePromise` is set at time `t`,
given the time (if any) at which `cancel()` was invoked.  A `cancel()` call
at the settlement tick runs before the settlement's microtask handlers. -/
def isCancelledAt : Option Nat → Nat → Bool
  | none, _ => false
  | some c, t => decide (c ≤ t)

/-- Function `cancellablePromise` (router.tsx lines 114-129): the wrapper promise's
`then`/`catch` handlers test the `isCancelled` flag when the underlying
promise settles and simply do nothing when it is set, so the wrapper then
never settles (`none`); otherwise it adopts the underlying settlement. -/
def cancellablePromise (cancelTime : Option Nat) (settleTime : Nat)
    (out : SettleResult) : Option SettleResult :=
  if isCancelledAt cancelTime settleTime then none else some out

/-- Everything observable about one `preloadRoute` call (router.tsx lines
344-373). -/
structure PreloadResult where
  guardTrace : ChainTrace
  resolverInvokes : List (String × Nat)
  settle : Nat
  outcome : SettleResult
  stateWrite : Option (Nat × RouteState)
  wrapped : Option SettleResult
  redirected : Bool
deriving DecidableEq, Repr

/-- Function `preloadRoute` called at time `t0`, with `cancelTime` the time (if ever)
at which the caller invokes the returned `cancel` function.
`preloadPromise = guardPromise.then(() => resolvePromise)` settles once both
the guard chain has fulfilled and the (already running) resolver chain has
settled, adopting the resolver chain's settlement — or rejects with the guard
chain.  The `setRouteState` write is chained on `preloadPromise` itself
(line 368), not on the cancellable wrapper, so `stateWrite` happens whenever
`preloadPromise` fulfills, independently of `cancelTime`; only the returned
wrapper (`wrapped`) is suppressed by cancellation. -/
def preloadRoute (guards : List GuardBeh)
    (resolvers : List (List (String × ResolverBeh)))
    (t0 : Nat) (cancelTime : Option Nat) : PreloadResult :=
  let gt := runGuards guards t0
  let rc := resolveChain resolvers
  let rSettle := t0 + rc.1
  let settle := if gt.ok then max gt.settle rSettle else gt.settle
  let outcome := if gt.ok then rc.2 else SettleResult.rejected
  { guardTrace := gt
    resolverInvokes := resolverInvocations resolvers t0
    settle := settle
    outcome := outcome
    stateWrite :=
      match outcome with
      | SettleResult.fulfilled d =>
          some (settle, { loading := false, resolvedData := d, completed := true })
      | SettleResult.rejected => none
    wrapped := cancellablePromise cancelTime settle outcome
    redirected := gt.redirected || resolvers.any (fun g => g.any (fun e => e.2.redirects)) }

/-! ### Eager full-path preload (`preloadPath`, router.tsx lines 375-418) -/

/-- A route as consumed by the preload walk: its id and the behaviours of its
guards and resolver groups. -/
structure RouteB where
  id : String
  guards : List GuardBeh
  resolvers : List (List (String × ResolverBeh))

def guardRedirects (r : RouteB) : Bool :=
  r.guards.any (fun g => g.redirects)

def resolverRedirects (r : RouteB) : Bool :=
  r.resolvers.any (fun g => g.any (fun e => e.2.redirects))

/-- Every guard of the route fulfills and every resolver of every group
fulfills. -/
def routeFulfills (r : RouteB) : Bool :=
  r.guards.all (fun g => g.ok) &&
    r.resolvers.all (fun g => g.all (fun e => e.2.result.isSome))

/-- The `RouteState` the completed preload of a route writes:
`{loading: false, resolvedData, completed: true}` with `resolvedData` the
value the resolver chain fulfills with. -/
def writtenState (r : RouteB) : RouteState :=
  { loading := false
    resolvedData :=
      match (resolveChain r.resolvers).2 with
      | SettleResult.fulfilled d => d
      | SettleResult.rejected => none
    completed := true }

/-- The final `routeStates` object after every route of the walk has been
preloaded and has written its completed state. -/
def writeAll (rs : List RouteB) (init : List (String × RouteState)) :
    List (String × RouteState) :=
  rs.foldl (fun st r => jsInsert st r.id (writtenState r)) init

/-- How `preloadPath` ends: the awaited preload promise rejected (the async
function throws), a redirect was observed and `null` is returned, or the
walk completed and the router state is returned. -/
inductive PathResult where
  | threw
  | redirectedNull
  | completed (routeStates : List (String × RouteState))
deriving DecidableEq, Repr

/-- The `preloadPath` walk (router.tsx lines 394-417): for each route of the
hierarchy's route list, stop and return `null` when a redirect has been
observed, otherwise run the route's full preload to settlement; its
`setRouteState` writes into the accumulated router state.  Returns the ids
of the routes whose preload was started, and the outcome. -/
def preloadPath : List RouteB → Bool → List (String × RouteState) →
    List String × PathResult
  | [], red, states =>
      ([], if red then PathResult.redirectedNull else PathResult.completed states)
  | r :: rest, red, states =>
      if red then ([], PathResult.redirectedNull)
      else
        let p := preloadRoute r.guards r.resolvers 0 none
        match p.stateWrite with
        | some sw =>
            let next := preloadPath rest (red || p.redirected) (jsInsert states r.id sw.2)
            (r.id :: next.1, next.2)
        | none => ([r.id], PathResult.threw)

/-! ## Theorems -/

/-! ### Guard chain lemmas -/

theorem runGuards_cons_head (g : GuardBeh) (gs : List GuardBeh) (t : Nat) :
    (runGuards (g :: gs) t).events.head? = some (t, t + g.dur) := by
  by_cases h : g.ok <;> simp [runGuards, h]

theorem runGuards_length_of_ok (gs : List GuardBeh) (t : Nat)
    (hok : ∀ g ∈ gs, g.ok = true) :
    (runGuards gs t).events.length = gs.length := by
  induction gs generalizing t with
  | nil => rfl
  | cons g gs ih =>
      have hg : g.ok = true := hok g (List.mem_cons_self g gs)
      simp only [runGuards, hg, if_true, List.length_cons]
      exact congrArg Nat.succ (ih (t + g.dur) (fun g2 h2 => hok g2 (List.mem_cons_of_mem g h2)))

theorem runGuards_consecutive (gs : List GuardBeh) (t : Nat)
    (hok : ∀ g ∈ gs, g.ok = true) :
    ((runGuards gs t).events.zip (runGuards gs t).events.tail).all
      (fun p => p.2.1 == p.1.2) = true := by
  induction gs generalizing t with
  | nil => rfl
  | cons g gs ih =>
      have hg : g.ok = true := hok g (List.mem_cons_self g gs)
      have hok2 : ∀ g2 ∈ gs, g2.ok = true := fun g2 h2 => hok g2 (List.mem_cons_of_mem g h2)
      simp only [runGuards, hg, if_true]
      cases gs with
      | nil => rfl
      | cons g2 gs2 =>
          have hhead := runGuards_cons_head g2 gs2 (t + g.dur)
          cases hev : (runGuards (g2 :: gs2) (t + g.dur)).events with
          | nil => simp [hev] at hhead
          | cons e es =>
              rw [hev] at hhead
              simp only [List.head?_cons, Option.some.injEq] at hhead
              have hzip := ih (t + g.dur) hok2
              rw [hev] at hzip
              simp only [List.tail_cons] at hzip
              rw [hhead] at hzip
              simp only [List.tail_cons, List.zip_cons_cons, List.all_cons, hhead,
                beq_self_eq_true, Bool.true_and]
              exact hzip

theorem runGuards_redirected_of_ok (gs : List GuardBeh) (t : Nat)
    (hok : ∀ g ∈ gs, g.ok = true) :
    (runGuards gs t).redirected = gs.any (fun g => g.redirects) := by
  induction gs generalizing t with
  | nil => rfl
  | cons g gs ih =>
      have hg : g.ok = true := hok g (List.mem_cons_self g gs)
      simp only [runGuards, hg, if_true, List.any_cons]
      rw [ih (t + g.dur) (fun g2 h2 => hok g2 (List.mem_cons_of_mem g h2))]

/-! ### Map and preload-walk lemmas -/

theorem lookupS_append (m1 m2 : List (String × α)) (k : String) :
    lookupS (m1 ++ m2) k = (lookupS m1 k).orElse (fun _ => lookupS m2 k) := by
  induction m1 with
  | nil => rfl
  | cons e m1 ih =>
      rcases e with ⟨k2, v⟩
      by_cases h : k2 == k <;> simp [lookupS, h, ih]

theorem lookupS_eq_none_of_any_false {m : List (String × α)} {k : String}
    (h : m.any (fun e => e.1 == k) = false) : lookupS m k = none := by
  induction m with
  | nil => rfl
  | cons e m ih =>
      simp only [List.any_cons, Bool.or_eq_false_iff] at h
      simp [lookupS, h.1, ih h.2]

theorem lookupS_map_replace (m : List (String × α)) (k k2 : String) (v : α)
    (hne : k2 ≠ k) :
    lookupS (m.map (fun e => if e.1 == k then (k, v) else e)) k2 = lookupS m k2 := by
  have hkk2 : (k == k2) = false := by
    simp only [beq_eq_false_iff_ne, ne_eq]
    exact fun hc => hne hc.symm
  induction m with
  | nil => rfl
  | cons e m ih =>
      rcases e with ⟨k3, v3⟩
      simp only [List.map_cons]
      by_cases h3 : (k3 == k) = true
      · rw [if_pos h3]
        rw [beq_iff_eq] at h3
        subst h3
        simp only [lookupS, hkk2, Bool.false_eq_true, if_false]
        exact ih
      · rw [if_neg h3]
        simp only [lookupS]
        by_cases h32 : (k3 == k2) = true
        · rw [if_pos h32, if_pos h32]
        · rw [if_neg h32, if_neg h32]
          exact ih

theorem lookupS_map_replace_self (m : List (String × α)) (k : String) (v : α)
    (h : m.any (fun e => e.1 == k) = true) :
    lookupS (m.map (fun e => if e.1 == k then (k, v) else e)) k = some v := by
  induction m with
  | nil => simp at h
  | cons e m ih =>
      rcases e with ⟨k2, v2⟩
      simp only [List.map_cons]
      by_cases h2 : (k2 == k) = true
      · rw [if_pos h2]
        simp [lookupS]
      · rw [if_neg h2]
        simp only [List.any_cons] at h
        simp only [h2, Bool.false_or] at h
        simp only [lookupS, h2, Bool.false_eq_true, if_false]
        exact ih h

theorem lookupS_jsInsert_self (m : List (String × α)) (k : String) (v : α) :
    lookupS (jsInsert m k v) k = some v := by
  unfold jsInsert
  by_cases h : m.any (fun e => e.1 == k)
  · simp only [h, if_true]
    exact lookupS_map_replace_self m k v h
  · simp only [h, Bool.false_eq_true, if_false]
    rw [lookupS_append]
    rw [lookupS_eq_none_of_any_false (Bool.eq_false_iff.mpr h)]
    simp [lookupS]

theorem lookupS_jsInsert_ne (m : List (String × α)) (k k2 : String) (v : α)
    (hne : k2 ≠ k) : lookupS (jsInsert m k v) k2 = lookupS m k2 := by
  unfold jsInsert
  by_cases h : m.any (fun e => e.1 == k)
  · simp only [h, if_true]
    exact lookupS_map_replace m k k2 v hne
  · simp only [h, Bool.false_eq_true, if_false]
    rw [lookupS_append]
    have hkk2 : (k == k2) = false := by
      simp only [beq_eq_false_iff_ne, ne_eq]
      exact fun hc => hne hc.symm
    cases hm : lookupS m k2 with
    | some v2 => rfl
    | none =>
        show Option.orElse none _ = none
        simp only [Option.orElse, lookupS, hkk2, Bool.false_eq_true, if_false]

theorem runGuards_ok_of_ok (gs : List GuardBeh) (t : Nat)
    (hok : ∀ g ∈ gs, g.ok = true) : (runGuards gs t).ok = true := by
  induction gs generalizing t with
  | nil => rfl
  | cons g gs ih =>
      have hg : g.ok = true := hok g (List.mem_cons_self g gs)
      simp only [runGuards, hg, if_true]
      exact ih (t + g.dur) (fun g2 h2 => hok g2 (List.mem_cons_of_mem g h2))

theorem groupData_isSome (g : List (String × ResolverBeh))
    (h : g.all (fun e => e.2.result.isSome) = true) :
    groupData g = some (g.map (fun e => (e.1, e.2.result.getD 0))) := by
  unfold groupData
  simp [h]

/-- The resolver reduce's callback ignores its accumulator, so the fold
returns the image of the last group (or the seed `Promise.resolve()` for an
empty group list). -/
theorem resolveChain_eq_last (resolvers : List (List (String × ResolverBeh))) :
    resolveChain resolvers =
      (resolvers.getLast?.map (fun g => (groupDur g,
        match groupData g with
        | some d => SettleResult.fulfilled (some d)
        | none => SettleResult.rejected))).getD (0, SettleResult.fulfilled none) := by
  unfold resolveChain
  generalize (0, SettleResult.fulfilled none) = a
  induction resolvers generalizing a with
  | nil => rfl
  | cons g l ih =>
      simp only [List.foldl_cons]
      rw [ih]
      cases l with
      | nil => rfl
      | cons g2 l2 =>
          rw [List.getLast?_cons_cons]
          cases hl : (g2 :: l2).getLast? with
          | none => simp at hl
          | some x => rfl

theorem resolveChain_fulfilled (resolvers : List (List (String × ResolverBeh)))
    (h : resolvers.all (fun g => g.all (fun e => e.2.result.isSome)) = true) :
    ∃ d, (resolveChain resolvers).2 = SettleResult.fulfilled d := by
  rw [resolveChain_eq_last]
  cases hl : resolvers.getLast? with
  | none => exact ⟨none, rfl⟩
  | some g =>
      have hg : g ∈ resolvers := List.mem_of_mem_getLast? hl
      have hall : g.all (fun e => e.2.result.isSome) = true := by
        rw [List.all_eq_true] at h
        exact h g hg
      refine ⟨some (g.map (fun e => (e.1, e.2.result.getD 0))), ?_⟩
      show (match groupData g with
            | some d => SettleResult.fulfilled (some d)
            | none => SettleResult.rejected) = _
      rw [groupData_isSome g hall]

/-- Under a fulfilling route, `preloadRoute` performs its completed state
write with the resolver chain's data — this is the state `writtenState`
records. -/
theorem preloadRoute_stateWrite_of_fulfills (r : RouteB) (t0 : Nat) (ct : Option Nat)
    (h : routeFulfills r = true) :
    (preloadRoute r.guards r.resolvers t0 ct).stateWrite =
      some ((preloadRoute r.guards r.resolvers t0 ct).settle, writtenState r) := by
  unfold routeFulfills at h
  simp only [Bool.and_eq_true, List.all_eq_true] at h
  have hok : (runGuards r.guards t0).ok = true :=
    runGuards_ok_of_ok r.guards t0 (fun g hg => h.1 g hg)
  have hres : r.resolvers.all (fun g => g.all (fun e => e.2.result.isSome)) = true := by
    simp only [List.all_eq_true]
    exact h.2
  obtain ⟨d, hd⟩ := resolveChain_fulfilled r.resolvers hres
  unfold preloadRoute writtenState
  simp only [hok, if_true, hd]

/-- Under a fulfilling route whose resolvers do not redirect, the preload's
`redirected` flag is exactly "some guard called `redirect`". -/
theorem preloadRoute_redirected_of_fulfills (r : RouteB) (t0 : Nat) (ct : Option Nat)
    (h : routeFulfills r = true) (hres : resolverRedirects r = false) :
    (preloadRoute r.guards r.resolvers t0 ct).redirected = guardRedirects r := by
  unfold routeFulfills at h
  simp only [Bool.and_eq_true, List.all_eq_true] at h
  unfold preloadRoute
  simp only
  rw [runGuards_redirected_of_ok r.guards t0 (fun g hg => h.1 g hg)]
  unfold resolverRedirects at hres
  rw [hres]
  unfold guardRedirects
  simp

/-- When the redirect flag is already set, the walk stops at once. -/
theorem preloadPath_red_true (rs : List RouteB) (states : List (String × RouteState)) :
    preloadPath rs true states = ([], PathResult.redirectedNull) := by
  cases rs <;> rfl

/-- Every route state `preloadPath` writes is a completed one, so every
walked route id maps to a completed entry in the final map. -/
theorem writeAll_preserves_completed (rs : List RouteB) (init : List (String × RouteState))
    (k : String)
    (h : ((lookupS init k).getD (⟨true, none, false⟩ : RouteState)).completed = true) :
    ((lookupS (writeAll rs init) k).getD (⟨true, none, false⟩ : RouteState)).completed = true := by
  induction rs generalizing init with
  | nil => exact h
  | cons r rest ih =>
      unfold writeAll
      simp only [List.foldl_cons]
      by_cases hk : r.id = k
      · subst hk
        apply ih
        rw [lookupS_jsInsert_self]
        rfl
      · apply ih
        rw [lookupS_jsInsert_ne init r.id k (writtenState r) (fun hc => hk hc.symm)]
        exact h

theorem writeAll_covers (rs : List RouteB) (init : List (String × RouteState))
    (r : RouteB) (hr : r ∈ rs) :
    ((lookupS (writeAll rs init) r.id).getD (⟨true, none, false⟩ : RouteState)).completed = true := by
  induction rs generalizing init with
  | nil => cases hr
  | cons r0 rest ih =>
      unfold writeAll
      simp only [List.foldl_cons]
      rcases List.mem_cons.mp hr with h0 | h0
      · subst h0
        apply writeAll_preserves_completed
        rw [lookupS_jsInsert_self]
        rfl
      · exact ih _ h0

theorem preloadPath_result (rs : List RouteB) (init : List (String × RouteState))
    (hf : rs.all routeFulfills = true)
    (hr : rs.all (fun r => !resolverRedirects r) = true) :
    (preloadPath rs false init).2 =
      (if rs.any guardRedirects then PathResult.redirectedNull
       else PathResult.completed (writeAll rs init)) := by
  induction rs generalizing init with
  | nil => rfl
  | cons r rest ih =>
      simp only [List.all_cons, Bool.and_eq_true] at hf hr
      have hwrite := preloadRoute_stateWrite_of_fulfills r 0 none hf.1
      have hred := preloadRoute_redirected_of_fulfills r 0 none hf.1
        (by simpa using hr.1)
      simp only [preloadPath, Bool.false_eq_true, if_false, hwrite, hred, Bool.false_or]
      by_cases hg : guardRedirects r = true
      · rw [hg, preloadPath_red_true]
        simp [hg]
      · simp only [Bool.not_eq_true] at hg
        rw [hg]
        simp only [List.any_cons, hg, Bool.false_or]
        have hwa : writeAll (r :: rest) init
            = writeAll rest (jsInsert init r.id (writtenState r)) := rfl
        rw [hwa]
        exact ih (jsInsert init r.id (writtenState r)) hf.2 hr.2

theorem preloadPath_started (rs : List RouteB) (init : List (String × RouteState))
    (hf : rs.all routeFulfills = true)
    (hr : rs.all (fun r => !resolverRedirects r) = true) :
    (preloadPath rs false init).1 =
      (rs.take (rs.findIdx guardRedirects + 1)).map RouteB.id := by
  induction rs generalizing init with
  | nil => rfl
  | cons r rest ih =>
      simp only [List.all_cons, Bool.and_eq_true] at hf hr
      have hwrite := preloadRoute_stateWrite_of_fulfills r 0 none hf.1
      have hred := preloadRoute_redirected_of_fulfills r 0 none hf.1
        (by simpa using hr.1)
      simp only [preloadPath, Bool.false_eq_true, if_false, hwrite, hred, Bool.false_or]
      by_cases hg : guardRedirects r = true
      · rw [hg, preloadPath_red_true]
        simp [List.findIdx_cons, hg]
      · simp only [Bool.not_eq_true] at hg
        rw [hg]
        simp only [List.findIdx_cons, hg, cond_false, List.take_succ_cons, List.map_cons,
          List.cons.injEq, true_and]
        exact ih (jsInsert init r.id (writtenState r)) hf.2 hr.2

/-- C7: during an eager full-path preload where every guard and resolver
fulfills and no resolver redirects, (a) when some route's guard calls
`redirect`, the walk starts no preload beyond that route and yields `null`
(the redirect signal) instead of a router state, and (b) when no guard
redirects, the walk preloads every route of the hierarchy and returns the
router state in which every route id carries a completed state. -/
theorem claim_C7_redirect_stops_walk (rs : List RouteB)
    (init : List (String × RouteState))
    (hfulfill : rs.all routeFulfills = true)
    (hres : rs.all (fun r => !resolverRedirects r) = true) :
    (preloadPath rs false init).2 =
      (if rs.any guardRedirects then PathResult.redirectedNull
       else PathResult.completed (writeAll rs init)) ∧
    (preloadPath rs false init).1 =
      (rs.take (rs.findIdx guardRedirects + 1)).map RouteB.id ∧
    rs.all (fun r => ((lookupS (writeAll rs init) r.id).getD (⟨true, none, false⟩ : RouteState)).completed) = true := by
  refine ⟨preloadPath_result rs init hfulfill hres, preloadPath_started rs init hfulfill hres, ?_⟩
  simp only [List.all_eq_true]
  exact fun r hr => writeAll_covers rs init r hr

theorem claim_C7_redirect_stops_walk_witness :
    (preloadPath [⟨"a", [⟨1, true, false⟩], []⟩, ⟨"b", [⟨1, true, true⟩], []⟩,
        ⟨"c", [], []⟩] false []).2 =
      (if ([⟨"a", [⟨1, true, false⟩], []⟩, ⟨"b", [⟨1, true, true⟩], []⟩,
          ⟨"c", [], []⟩] : List RouteB).any guardRedirects then PathResult.redirectedNull
       else PathResult.completed (writeAll [⟨"a", [⟨1, true, false⟩], []⟩,
          ⟨"b", [⟨1, true, true⟩], []⟩, ⟨"c", [], []⟩] [])) ∧
    (preloadPath [⟨"a", [⟨1, true, false⟩], []⟩, ⟨"b", [⟨1, true, true⟩], []⟩,
        ⟨"c", [], []⟩] false []).1 =
      (([⟨"a", [⟨1, true, false⟩], []⟩, ⟨"b", [⟨1, true, true⟩], []⟩,
          ⟨"c", [], []⟩] : List RouteB).take
        (([⟨"a", [⟨1, true, false⟩], []⟩, ⟨"b", [⟨1, true, true⟩], []⟩,
          ⟨"c", [], []⟩] : List RouteB).findIdx guardRedirects + 1)).map RouteB.id ∧
    ([⟨"a", [⟨1, true, false⟩], []⟩, ⟨"b", [⟨1, true, true⟩], []⟩,
        ⟨"c", [], []⟩] : List RouteB).all
      (fun r => ((lookupS (writeAll [⟨"a", [⟨1, true, false⟩], []⟩,
          ⟨"b", [⟨1, true, true⟩], []⟩, ⟨"c", [], []⟩] []) r.id).getD (⟨true, none, false⟩ : RouteState)).completed) = true :=
  claim_C7_redirect_stops_walk
    [⟨"a", [⟨1, true, false⟩], []⟩, ⟨"b", [⟨1, true, true⟩], []⟩, ⟨"c", [], []⟩]
    [] (by decide) (by decide)

/-- C8: when every guard fulfills, the guard chain invokes all the guards
strictly sequentially — each guard's invocation time equals the previous
guard's settlement time — and a guard calling `redirect` does not
short-circuit the chain: every declared guard still runs (the events list has
one entry per guard regardless of the `redirects` flags, which only
accumulate into the `redirected` flag). -/
theorem claim_C8_guards_sequential_no_short_circuit (gs : List GuardBeh) (t0 : Nat)
    (hok : ∀ g ∈ gs, g.ok = true) :
    (runGuards gs t0).events.length = gs.length ∧
    ((runGuards gs t0).events.zip (runGuards gs t0).events.tail).all
      (fun p => p.2.1 == p.1.2) = true ∧
    (runGuards gs t0).redirected = gs.any (fun g => g.redirects) :=
  ⟨runGuards_length_of_ok gs t0 hok, runGuards_consecutive gs t0 hok,
    runGuards_redirected_of_ok gs t0 hok⟩

theorem claim_C8_guards_sequential_no_short_circuit_witness :
    (runGuards [⟨1, true, true⟩, ⟨2, true, false⟩] 0).events.length =
      ([⟨1, true, true⟩, ⟨2, true, false⟩] : List GuardBeh).length ∧
    ((runGuards [⟨1, true, true⟩, ⟨2, true, false⟩] 0).events.zip
        (runGuards [⟨1, true, true⟩, ⟨2, true, false⟩] 0).events.tail).all
      (fun p => p.2.1 == p.1.2) = true ∧
    (runGuards [⟨1, true, true⟩, ⟨2, true, false⟩] 0).redirected =
      ([⟨1, true, true⟩, ⟨2, true, false⟩] : List GuardBeh).any (fun g => g.redirects) :=
  claim_C8_guards_sequential_no_short_circuit [⟨1, true, true⟩, ⟨2, true, false⟩] 0
    (by decide)

/-- C9: `mergePaths` places exactly one `/` between the two segments
regardless of a trailing slash on the left or a leading slash on the right:
the three concrete merges all yield `"/a/b"`, and in general the result is
the left segment minus its trailing slash, one `/`, and the right segment
minus its leading slash. -/
theorem claim_C9_merge_paths_single_slash :
    mergePathsS "/a/" "/b" = "/a/b" ∧
    mergePathsS "/a" "b" = "/a/b" ∧
    mergePathsS "/a" "/b" = "/a/b" ∧
    ∀ left right : List Char,
      mergePaths left right = stripTrailingSlash left ++ '/' :: stripLeadingSlash right := by
  refine ⟨by decide, by decide, by decide, ?_⟩
  intro left right
  unfold mergePaths stripTrailingSlash stripLeadingSlash
  rcases hL : left.getLast? == some '/' with _ | _ <;>
    rcases hR : right.head? == some '/' with _ | _ <;>
      simp only [hL, hR, Bool.true_and, Bool.false_and, Bool.and_true, Bool.and_false,
        Bool.not_true, Bool.not_false, Bool.true_or, Bool.false_or, Bool.or_true,
        Bool.or_false, if_true, if_false, cond_true, cond_false, ite_true, ite_false,
        Bool.false_eq_true]
  case false.true =>
    rcases right with _ | ⟨c, rt⟩
    · simp at hR
    · simp only [List.head?_cons, beq_iff_eq, Option.some.injEq] at hR
      subst hR
      rfl
  case true.false =>
    rw [beq_iff_eq] at hL
    obtain ⟨l2, rfl⟩ := List.getLast?_eq_some_iff.mp hL
    simp
  case true.true =>
    rw [beq_iff_eq] at hL
    obtain ⟨l2, rfl⟩ := List.getLast?_eq_some_iff.mp hL
    rcases right with _ | ⟨c, rt⟩
    · simp at hR
    · simp only [List.head?_cons, beq_iff_eq, Option.some.injEq] at hR
      subst hR
      simp

/-- C10: when `cancel()` is invoked strictly before the underlying promise
settles, the promise returned by `cancellablePromise` never settles at all —
it neither resolves nor rejects, whatever the underlying settlement is
(including a later rejection). -/
theorem claim_C10_cancelled_wrapper_never_settles (c t : Nat) (out : SettleResult)
    (h : c < t) : cancellablePromise (some c) t out = none := by
  unfold cancellablePromise isCancelledAt
  simp [Nat.le_of_lt h]

theorem claim_C10_cancelled_wrapper_never_settles_witness :
    0 < 1 ∧ cancellablePromise (some 0) 1 SettleResult.rejected = none :=
  ⟨by decide, claim_C10_cancelled_wrapper_never_settles 0 1 SettleResult.rejected (by decide)⟩

/-- C1 (observed divergence): a preload of a route with one guard that
fulfills one tick after the start, cancelled immediately (before the
guard+resolver chain settles), still performs the route-state write
`{loading: false, resolvedData: undefined, completed: true}` when the chain
fulfills — the write is chained on the raw preload promise, not on the
cancellable wrapper, so only the wrapper's settlement is suppressed. -/
theorem claim_C1_cancelled_preload_still_writes :
    (preloadRoute [⟨1, true, false⟩] [] 0 (some 0)).stateWrite =
      some (1, { loading := false, resolvedData := none, completed := true }) ∧
    (preloadRoute [⟨1, true, false⟩] [] 0 (some 0)).wrapped = none := by
  constructor <;> rfl

/-- C3 (observed divergence): with one guard settling at time 2 and two
resolver groups (`x` in group 1 taking 5 ticks, `y` in group 2 taking 3),
both resolvers are invoked at time 0 — before the guard chain settles at
time 2 and before group 1's `Promise.all` would settle at time 5 — because
the resolver reduce ignores its promise accumulator. -/
theorem claim_C3_resolvers_invoked_eagerly :
    (preloadRoute [⟨2, true, false⟩]
        [[("x", ⟨5, some 1, false⟩)], [("y", ⟨3, some 2, false⟩)]] 0 none).resolverInvokes =
      [("x", 0), ("y", 0)] ∧
    (preloadRoute [⟨2, true, false⟩]
        [[("x", ⟨5, some 1, false⟩)], [("y", ⟨3, some 2, false⟩)]] 0 none).guardTrace.settle = 2 ∧
    groupDur [("x", ⟨5, some 1, false⟩)] = 5 := by
  refine ⟨rfl, rfl, rfl⟩

/-- C4 (observed divergence): with no guards and two resolver groups
`[{x: resolver↦10}, {y: resolver↦20}]` that both fulfill, the completed
route state's `resolvedData` is only the last group's object `{y: 20}`:
the key `x` of the earlier group is absent, because the resolver reduce
discards every group's data except the last group's. -/
theorem claim_C4_only_last_group_data :
    (preloadRoute [] [[("x", ⟨1, some 10, false⟩)], [("y", ⟨1, some 20, false⟩)]]
        0 none).stateWrite =
      some (1, { loading := false, resolvedData := some [("y", 20)], completed := true }) ∧
    lookupS [("y", (20 : Nat))] "x" = none := by
  constructor <;> rfl

/-! ### Route tree lemmas -/

theorem routeIds_cons_some (rid mt : String) (g rv : Nat) (cs rs : List Route) :
    routeIds (Route.mk rid mt g rv (some cs) :: rs) = rid :: (routeIds cs ++ routeIds rs) := by
  simp [routeIds]

theorem routeIds_cons_none (rid mt : String) (g rv : Nat) (rs : List Route) :
    routeIds (Route.mk rid mt g rv none :: rs) = rid :: routeIds rs := by
  simp [routeIds]

theorem mem_routeIds (r : Route) (routes : List Route) (h : r ∈ routes) :
    r.id ∈ routeIds routes := by
  induction routes with
  | nil => cases h
  | cons r0 rs ih =>
      cases r0 with
      | mk rid mt g rv children =>
          rcases List.mem_cons.mp h with h0 | h0
          · subst h0
            cases children with
            | some cs => rw [routeIds_cons_some]; exact List.mem_cons_self _ _
            | none => rw [routeIds_cons_none]; exact List.mem_cons_self _ _
          · cases children with
            | some cs =>
                rw [routeIds_cons_some]
                exact List.mem_cons_of_mem _ (List.mem_append_right _ (ih h0))
            | none =>
                rw [routeIds_cons_none]
                exact List.mem_cons_of_mem _ (ih h0)

theorem nodup_routeIds_tail (r : Route) (rs : List Route)
    (h : (routeIds (r :: rs)).Nodup) : (routeIds rs).Nodup := by
  cases r with
  | mk rid mt g rv children =>
      cases children with
      | some cs =>
          rw [routeIds_cons_some] at h
          exact ((List.nodup_cons.mp h).2).of_append_right
      | none =>
          rw [routeIds_cons_none] at h
          exact (List.nodup_cons.mp h).2

theorem ValidH_cons_weaken (h : List String) (r : Route) (rs : List Route)
    (hv : ValidH h rs) : ValidH h (r :: rs) := by
  cases h with
  | nil => exact hv.elim
  | cons id rest =>
      obtain ⟨r2, hm, hid, hd⟩ := hv
      exact ⟨r2, List.mem_cons_of_mem _ hm, hid, hd⟩

theorem jsInsert_mem (m : List (String × α)) (k : String) (v : α) (e : String × α)
    (he : e ∈ jsInsert m k v) : e ∈ m ∨ e = (k, v) := by
  unfold jsInsert at he
  by_cases h : m.any (fun e2 => e2.1 == k)
  · rw [if_pos h] at he
    obtain ⟨e2, he2, heq⟩ := List.mem_map.mp he
    by_cases h2 : (e2.1 == k) = true
    · rw [if_pos h2] at heq
      exact Or.inr heq.symm
    · rw [if_neg h2] at heq
      exact Or.inl (heq ▸ he2)
  · rw [if_neg h] at he
    rcases List.mem_append.mp he with h1 | h1
    · exact Or.inl h1
    · rcases List.mem_singleton.mp h1 with rfl
      exact Or.inr rfl

theorem foldl_jsInsert_mem (l : List (String × List String))
    (m0 : List (String × List String)) (e : String × List String)
    (he : e ∈ l.foldl (fun m e2 => jsInsert m e2.1 e2.2) m0) : e ∈ m0 ∨ e ∈ l := by
  induction l generalizing m0 with
  | nil => exact Or.inl he
  | cons e2 l ih =>
      simp only [List.foldl_cons] at he
      rcases ih (jsInsert m0 e2.1 e2.2) he with h1 | h1
      · rcases jsInsert_mem m0 e2.1 e2.2 e h1 with h2 | h2
        · exact Or.inl h2
        · exact Or.inr (by rw [h2]; exact List.mem_cons_self _ _)
      · exact Or.inr (List.mem_cons_of_mem _ h1)

theorem validH_rawInserts (routes : List Route) :
    ∀ e ∈ rawInserts routes, ValidH e.2 routes := by
  induction routes using rawInserts.induct with
  | case1 => intro e he; simp [rawInserts] at he
  | case2 id mt g rv children rest ih2 ih1 =>
      cases children with
      | some cs =>
          have ihcs : ∀ e ∈ rawInserts cs, ValidH e.2 cs := ih2
          intro e he
          simp only [rawInserts] at he
          rcases List.mem_append.mp he with h1 | h1
          · obtain ⟨e2, he2, heq⟩ := List.mem_map.mp h1
            have he2raw : e2 ∈ rawInserts cs := by
              rcases foldl_jsInsert_mem (rawInserts cs) [] e2 he2 with h2 | h2
              · cases h2
              · exact h2
            have hv2 := ihcs e2 he2raw
            rw [← heq]
            exact ⟨Route.mk id mt g rv (some cs), List.mem_cons_self _ _, rfl,
              Or.inr ⟨cs, rfl, hv2⟩⟩
          · rcases List.mem_cons.mp h1 with h2 | h2
            · rw [h2]
              exact ⟨Route.mk id mt g rv (some cs), List.mem_cons_self _ _, rfl, Or.inl rfl⟩
            · exact ValidH_cons_weaken _ _ _ (ih1 e h2)
      | none =>
          intro e he
          simp only [rawInserts] at he
          rcases List.mem_cons.mp (by simpa using he) with h2 | h2
          · rw [h2]
            exact ⟨Route.mk id mt g rv none, List.mem_cons_self _ _, rfl, Or.inl rfl⟩
          · exact ValidH_cons_weaken _ _ _ (ih1 e h2)

theorem matchHierarchy_mem (path : String) (m : List (String × List String))
    (oracle : Oracle) :
    (matchHierarchy path m oracle).1 = [] ∨
      ∃ e ∈ m, (matchHierarchy path m oracle).1 = e.2 := by
  induction m with
  | nil => exact Or.inl rfl
  | cons e rest ih =>
      rcases e with ⟨mp, hier⟩
      simp only [matchHierarchy]
      by_cases hstar : (mp == "*") = true
      · rw [if_pos hstar]
        exact Or.inr ⟨(mp, hier), List.mem_cons_self _ _, rfl⟩
      · rw [if_neg hstar]
        cases horacle : oracle path mp with
        | some params => exact Or.inr ⟨(mp, hier), List.mem_cons_self _ _, rfl⟩
        | none =>
            rcases ih with h1 | ⟨e2, he2, heq⟩
            · exact Or.inl h1
            · exact Or.inr ⟨e2, List.mem_cons_of_mem _ he2, heq⟩

/-- Every route the hierarchy walk collects has its id in the hierarchy. -/
theorem mhtr_sub (h : List String) (routes : List Route) :
    ∀ (l : List Route), mapHierarchyToRoutes h routes = .ok l → ∀ r ∈ l, r.id ∈ h := by
  induction h, routes using mapHierarchyToRoutes.induct with
  | case1 routes =>
      intro l hok r hr
      simp only [mapHierarchyToRoutes, Except.ok.injEq] at hok
      subst hok
      cases hr
  | case2 hd tl =>
      intro l hok r hr
      simp only [mapHierarchyToRoutes, Except.ok.injEq] at hok
      subst hok
      cases hr
  | case3 id rid mt g rv rs hbeq cs =>
      intro l hok
      simp [mapHierarchyToRoutes, hbeq] at hok
  | case4 id rid mt g rv rs hbeq hd tl =>
      intro l hok
      simp [mapHierarchyToRoutes, hbeq] at hok
  | case5 id rid mt g rv rs hbeq cs r1 rrest e hx ih1 =>
      intro l hok
      simp [mapHierarchyToRoutes, hbeq, hx] at hok
  | case6 id rid mt g rv rs hbeq cs r1 rrest ctr hx1 e hx ih2 ih1 =>
      intro l hok
      simp [mapHierarchyToRoutes, hbeq, hx1, hx] at hok
  | case7 id rid mt g rv rs hbeq cs r1 rrest ctr hx1 ttr hx ih2 ih1 =>
      intro l hok r hr
      simp only [mapHierarchyToRoutes, hbeq, if_true, hx1, hx, Except.ok.injEq] at hok
      subst hok
      rcases List.mem_cons.mp hr with h0 | h0
      · subst h0
        simp only [Route.id]
        rw [beq_iff_eq] at hbeq
        subst hbeq
        exact List.mem_cons_self _ _
      · rcases List.mem_append.mp h0 with h1 | h1
        · exact List.mem_cons_of_mem _ (ih2 ctr hx1 r h1)
        · exact ih1 ttr hx r h1
  | case8 id rid mt g rv rs hbeq e hx ih1 =>
      intro l hok
      simp [mapHierarchyToRoutes, hbeq, hx] at hok
  | case9 id rid mt g rv rs hbeq ttr hx ih1 =>
      intro l hok r hr
      simp only [mapHierarchyToRoutes, hbeq, if_true, hx, Except.ok.injEq] at hok
      subst hok
      rcases List.mem_cons.mp hr with h0 | h0
      · subst h0
        simp only [Route.id]
        rw [beq_iff_eq] at hbeq
        subst hbeq
        exact List.mem_cons_self _ _
      · exact ih1 ttr hx r h0
  | case10 id rest rid mt g rv children rs hbeq ih1 =>
      intro l hok r hr
      have hbeq2 : (rid == id) = false := Bool.eq_false_iff.mpr hbeq
      rw [mapHierarchyToRoutes.eq_def] at hok
      simp only [hbeq2, Bool.false_eq_true, if_false] at hok
      exact ih1 l hok r hr

/-- Scanning a route list in which no route carries the searched id collects
nothing (and raises no error). -/
theorem mhtr_not_found (id : String) (rest : List String) (routes : List Route)
    (hne : ∀ r ∈ routes, r.id ≠ id) :
    mapHierarchyToRoutes (id :: rest) routes = .ok [] := by
  induction routes with
  | nil => rw [mapHierarchyToRoutes.eq_def]
  | cons r rs ih =>
      cases r with
      | mk rid mt g rv children =>
          have hbeq2 : (rid == id) = false := by
            rw [beq_eq_false_iff_ne]
            exact hne (Route.mk rid mt g rv children) (List.mem_cons_self _ _)
          rw [mapHierarchyToRoutes.eq_def]
          simp only [hbeq2, Bool.false_eq_true, if_false]
          exact ih (fun r2 h2 => hne r2 (List.mem_cons_of_mem _ h2))

/-- On a locatable hierarchy over a tree with globally distinct ids, a
successful walk collects exactly the hierarchy's routes, in order. -/
theorem mhtr_exact (h : List String) (routes : List Route) :
    ∀ (l : List Route), ValidH h routes → (routeIds routes).Nodup →
      mapHierarchyToRoutes h routes = .ok l → l.map Route.id = h := by
  induction h, routes using mapHierarchyToRoutes.induct with
  | case1 routes =>
      intro l hv _ _
      exact hv.elim
  | case2 hd tl =>
      intro l hv _ _
      obtain ⟨r2, hm, _⟩ := hv
      cases hm
  | case3 id rid mt g rv rs hbeq cs =>
      intro l _ _ hok
      simp [mapHierarchyToRoutes, hbeq] at hok
  | case4 id rid mt g rv rs hbeq hd tl =>
      intro l _ _ hok
      simp [mapHierarchyToRoutes, hbeq] at hok
  | case5 id rid mt g rv rs hbeq cs r1 rrest e hx ih1 =>
      intro l _ _ hok
      simp [mapHierarchyToRoutes, hbeq, hx] at hok
  | case6 id rid mt g rv rs hbeq cs r1 rrest ctr hx1 e hx ih2 ih1 =>
      intro l _ _ hok
      simp [mapHierarchyToRoutes, hbeq, hx1, hx] at hok
  | case7 id rid mt g rv rs hbeq cs r1 rrest ctr hx1 ttr hx ih2 ih1 =>
      intro l hv hnd hok
      simp only [mapHierarchyToRoutes, hbeq, if_true, hx1, hx, Except.ok.injEq] at hok
      subst hok
      have hid : rid = id := beq_iff_eq.mp hbeq
      rw [routeIds_cons_some] at hnd
      have hnotin : rid ∉ routeIds cs ++ routeIds rs := (List.nodup_cons.mp hnd).1
      have hndcs : (routeIds cs).Nodup := ((List.nodup_cons.mp hnd).2).of_append_left
      obtain ⟨r2, hr2mem, hr2id, hdisj⟩ := hv
      have hr2head : r2 = Route.mk rid mt g rv (some cs) := by
        rcases List.mem_cons.mp hr2mem with h0 | h0
        · exact h0
        · exfalso
          have hmem2 : r2.id ∈ routeIds rs := mem_routeIds r2 rs h0
          rw [hr2id, ← hid] at hmem2
          exact hnotin (List.mem_append_right _ hmem2)
      rcases hdisj with hre | ⟨cs2, hcs2, hvrest⟩
      · exact absurd hre (List.cons_ne_nil r1 rrest)
      · have hcs : cs2 = cs := by
          rw [hr2head] at hcs2
          simpa [Route.children] using hcs2.symm
        subst hcs
        have httr : ttr = [] := by
          have hnone : ∀ r3 ∈ rs, r3.id ≠ id := by
            intro r3 h3 hcontr
            have hmem3 : r3.id ∈ routeIds rs := mem_routeIds r3 rs h3
            rw [hcontr, ← hid] at hmem3
            exact hnotin (List.mem_append_right _ hmem3)
          have hnf := mhtr_not_found id (r1 :: rrest) rs hnone
          exact Except.ok.inj (hx.symm.trans hnf)
        subst httr
        have hcl : ctr.map Route.id = r1 :: rrest := ih2 ctr hvrest hndcs hx1
        simp [Route.id, hcl, hid]
  | case8 id rid mt g rv rs hbeq e hx ih1 =>
      intro l _ _ hok
      simp [mapHierarchyToRoutes, hbeq, hx] at hok
  | case9 id rid mt g rv rs hbeq ttr hx ih1 =>
      intro l hv hnd hok
      simp only [mapHierarchyToRoutes, hbeq, if_true, hx, Except.ok.injEq] at hok
      subst hok
      have hid : rid = id := beq_iff_eq.mp hbeq
      rw [routeIds_cons_none] at hnd
      have hnotin : rid ∉ routeIds rs := (List.nodup_cons.mp hnd).1
      have httr : ttr = [] := by
        have hnone : ∀ r3 ∈ rs, r3.id ≠ id := by
          intro r3 h3 hcontr
          have hmem3 : r3.id ∈ routeIds rs := mem_routeIds r3 rs h3
          rw [hcontr, ← hid] at hmem3
          exact hnotin hmem3
        have hnf := mhtr_not_found id [] rs hnone
        exact Except.ok.inj (hx.symm.trans hnf)
      subst httr
      simp [Route.id, hid]
  | case10 id rest rid mt g rv children rs hbeq ih1 =>
      intro l hv hnd hok
      have hbeq2 : (rid == id) = false := Bool.eq_false_iff.mpr hbeq
      rw [mapHierarchyToRoutes.eq_def] at hok
      simp only [hbeq2, Bool.false_eq_true, if_false] at hok
      have hvtail : ValidH (id :: rest) rs := by
        obtain ⟨r2, hr2mem, hr2id, hdisj⟩ := hv
        rcases List.mem_cons.mp hr2mem with h0 | h0
        · exfalso
          rw [h0] at hr2id
          simp only [Route.id] at hr2id
          rw [beq_eq_false_iff_ne] at hbeq2
          exact hbeq2 hr2id
        · exact ⟨r2, h0, hr2id, hdisj⟩
      exact ih1 l hvtail (nodup_routeIds_tail _ rs hnd) hok

/-! ### Route state retention lemmas -/

theorem lookupS_filter (prev : List (String × α)) (f : String → Bool) (k : String) :
    lookupS (prev.filter (fun p => f p.1)) k =
      (if f k then lookupS prev k else none) := by
  induction prev with
  | nil => simp [lookupS]
  | cons e rest ih =>
      rcases e with ⟨k2, v⟩
      by_cases h2 : (k2 == k) = true
      · have hk : k2 = k := beq_iff_eq.mp h2
        subst hk
        by_cases hf : f k2 = true
        · simp [List.filter_cons, hf, lookupS, h2]
        · have hf2 : f k2 = false := Bool.eq_false_iff.mpr hf
          simp only [List.filter_cons, hf2, Bool.false_eq_true, if_false, ih, hf2]
      · have h2f : (k2 == k) = false := Bool.eq_false_iff.mpr h2
        by_cases hf : f k2 = true
        · simp only [List.filter_cons, hf, if_true, lookupS, h2f, Bool.false_eq_true,
            if_false, ih]
        · have hf2 : f k2 = false := Bool.eq_false_iff.mpr hf
          simp only [List.filter_cons, hf2, Bool.false_eq_true, if_false, ih, lookupS, h2f]

theorem lookupS_isSome_any (m : List (String × α)) (k : String) :
    (lookupS m k).isSome = m.any (fun e => e.1 == k) := by
  induction m with
  | nil => rfl
  | cons e rest ih =>
      rcases e with ⟨k2, v⟩
      by_cases h2 : (k2 == k) = true
      · simp [lookupS, h2]
      · have h2f : (k2 == k) = false := Bool.eq_false_iff.mpr h2
        simp [lookupS, h2f, ih]

theorem statesFold_preserve (l : List Route) (acc : List (String × RouteState))
    (k : String) (h : (lookupS acc k).isSome = true) :
    lookupS (l.foldl
      (fun acc r =>
        if acc.any (fun p => p.1 == r.id) then acc
        else acc ++ [(r.id, freshState r)]) acc) k = lookupS acc k := by
  induction l generalizing acc with
  | nil => rfl
  | cons r rest ih =>
      simp only [List.foldl_cons]
      by_cases hany : acc.any (fun p => p.1 == r.id) = true
      · rw [if_pos hany]
        exact ih acc h
      · rw [if_neg hany]
        have hne : r.id ≠ k := by
          intro hcontr
          rw [lookupS_isSome_any] at h
          rw [hcontr] at hany
          exact hany h
        have hpres : lookupS (acc ++ [(r.id, freshState r)]) k = lookupS acc k := by
          rw [lookupS_append]
          cases hl : lookupS acc k with
          | some v => rfl
          | none => rw [hl] at h; simp at h
        rw [ih _ (by rw [hpres]; exact h), hpres]

theorem statesFold_fresh (l : List Route) (acc : List (String × RouteState))
    (k : String) (hnone : lookupS acc k = none) (hex : ∃ r ∈ l, r.id = k) :
    ∃ r ∈ l, r.id = k ∧
      lookupS (l.foldl
        (fun acc r =>
          if acc.any (fun p => p.1 == r.id) then acc
          else acc ++ [(r.id, freshState r)]) acc) k = some (freshState r) := by
  induction l generalizing acc with
  | nil =>
      obtain ⟨r, hr, _⟩ := hex
      cases hr
  | cons r0 rest ih =>
      simp only [List.foldl_cons]
      by_cases hk : r0.id = k
      · have hany : acc.any (fun p => p.1 == r0.id) = false := by
          rw [← lookupS_isSome_any, hk, hnone]
          rfl
        rw [if_neg (by rw [hany]; exact Bool.false_ne_true)]
        have hlook : lookupS (acc ++ [(r0.id, freshState r0)]) k = some (freshState r0) := by
          rw [lookupS_append, hnone]
          show lookupS [(r0.id, freshState r0)] k = _
          simp [lookupS, hk]
        refine ⟨r0, List.mem_cons_self _ _, hk, ?_⟩
        rw [statesFold_preserve rest _ k (by rw [hlook]; rfl), hlook]
      · have hstep : lookupS (if acc.any (fun p => p.1 == r0.id) then acc
            else acc ++ [(r0.id, freshState r0)]) k = none := by
          by_cases hany : acc.any (fun p => p.1 == r0.id) = true
          · rw [if_pos hany]
            exact hnone
          · rw [if_neg hany, lookupS_append, hnone]
            show lookupS [(r0.id, freshState r0)] k = _
            have hne : (r0.id == k) = false := beq_eq_false_iff_ne.mpr hk
            simp [lookupS, hne]
        have hex2 : ∃ r ∈ rest, r.id = k := by
          obtain ⟨r, hr, hid⟩ := hex
          rcases List.mem_cons.mp hr with h0 | h0
          · exact absurd (h0 ▸ hid) hk
          · exact ⟨r, h0, hid⟩
        obtain ⟨r, hr, hid, hl⟩ := ih _ hstep hex2
        exact ⟨r, List.mem_cons_of_mem _ hr, hid, hl⟩

theorem statesFold_keys (l : List Route) (acc : List (String × RouteState))
    (k : String)
    (h : (lookupS (l.foldl
      (fun acc r =>
        if acc.any (fun p => p.1 == r.id) then acc
        else acc ++ [(r.id, freshState r)]) acc) k).isSome = true) :
    (lookupS acc k).isSome = true ∨ ∃ r ∈ l, r.id = k := by
  induction l generalizing acc with
  | nil => exact Or.inl h
  | cons r0 rest ih =>
      simp only [List.foldl_cons] at h
      rcases ih _ h with h1 | h1
      · by_cases hany : acc.any (fun p => p.1 == r0.id) = true
        · rw [if_pos hany] at h1
          exact Or.inl h1
        · rw [if_neg hany, lookupS_append] at h1
          cases hl : lookupS acc k with
          | some v => exact Or.inl rfl
          | none =>
              rw [hl] at h1
              by_cases hk : r0.id = k
              · exact Or.inr ⟨r0, List.mem_cons_self _ _, hk⟩
              · exfalso
                have hne : (r0.id == k) = false := beq_eq_false_iff_ne.mpr hk
                have hsingle : lookupS [(r0.id, freshState r0)] k = none := by
                  simp [lookupS, hne]
                have horelse : (Option.orElse (none : Option RouteState)
                    fun _ => lookupS [(r0.id, freshState r0)] k)
                    = lookupS [(r0.id, freshState r0)] k := rfl
                rw [horelse, hsingle] at h1
                simp at h1
      · obtain ⟨r, hr, hid⟩ := h1
        exact Or.inr ⟨r, List.mem_cons_of_mem _ hr, hid⟩

theorem lookupS_filter_contains (prev : List (String × α)) (hier : List String)
    (k : String) :
    lookupS (prev.filter (fun p => hier.contains p.1)) k =
      (if hier.contains k then lookupS prev k else none) := by
  induction prev with
  | nil => simp [lookupS]
  | cons e rest ih =>
      rcases e with ⟨k2, v⟩
      by_cases h2 : (k2 == k) = true
      · have hk : k2 = k := beq_iff_eq.mp h2
        subst hk
        by_cases hf : hier.contains k2 = true
        · simp only [List.filter_cons, hf, if_true, lookupS, h2]
        · have hf2 : hier.contains k2 = false := Bool.eq_false_iff.mpr hf
          simp only [List.filter_cons, hf2, Bool.false_eq_true, if_false, ih]
      · have h2f : (k2 == k) = false := Bool.eq_false_iff.mpr h2
        by_cases hf : hier.contains k2 = true
        · simp only [List.filter_cons, hf, if_true, lookupS, h2f, Bool.false_eq_true,
            if_false, ih]
        · have hf2 : hier.contains k2 = false := Bool.eq_false_iff.mpr hf
          simp only [List.filter_cons, hf2, Bool.false_eq_true, if_false, ih, lookupS, h2f]

/-- C2: the route-state map recomputed by `routerStateFromLocation` (on a
route tree with distinct ids, whenever it returns a state rather than
throwing) (1) keeps, unchanged, every previous entry whose id is in the new
hierarchy, (2) installs the fresh
`{loading: needsPreloading(route), resolvedData: {}, completed: false}` entry
for every hierarchy id with no previous entry, and (3) contains no id outside
the new hierarchy — previous entries that left the hierarchy are dropped. -/
theorem claim_C2_route_state_retention (routes : List Route) (path : String)
    (oracle : Oracle) (prev : List (String × RouteState)) (st : RouterStateM)
    (hids : (routeIds routes).Nodup)
    (hok : routerStateFromLocation routes path oracle (some prev) = Except.ok st) :
    (∀ id s, lookupS prev id = some s → st.hierarchy.contains id = true →
      lookupS st.routeStates id = some s) ∧
    (∀ id, st.hierarchy.contains id = true → lookupS prev id = none →
      ∃ l r, mapHierarchyToRoutes st.hierarchy routes = Except.ok l ∧ r ∈ l ∧
        r.id = id ∧ lookupS st.routeStates id = some (freshState r)) ∧
    (∀ id, (lookupS st.routeStates id).isSome = true →
      st.hierarchy.contains id = true) := by
  simp only [routerStateFromLocation] at hok
  cases hm : mapHierarchyToRoutes
      (matchHierarchy path (buildHierarchyMap routes) oracle).1 routes with
  | error e => rw [hm] at hok; cases hok
  | ok rl =>
      rw [hm] at hok
      simp only [Except.ok.injEq] at hok
      subst hok
      simp only [routeStatesFrom, Option.getD]
      refine ⟨?_, ?_, ?_⟩
      · intro id s hs hc
        have hcopied : lookupS (prev.filter (fun p =>
            (matchHierarchy path (buildHierarchyMap routes) oracle).1.contains p.1)) id
            = some s := by
          rw [lookupS_filter_contains, if_pos hc, hs]
        rw [statesFold_preserve rl _ id (by rw [hcopied]; rfl), hcopied]
      · intro id hc hnone
        have hmem : id ∈ (matchHierarchy path (buildHierarchyMap routes) oracle).1 :=
          List.mem_of_elem_eq_true hc
        rcases matchHierarchy_mem path (buildHierarchyMap routes) oracle with hemp | hentry
        · rw [hemp] at hmem
          cases hmem
        · obtain ⟨en, hen, heq⟩ := hentry
          have henraw : en ∈ rawInserts routes := by
            rcases foldl_jsInsert_mem (rawInserts routes) [] en hen with h2 | h2
            · cases h2
            · exact h2
          have hval : ValidH (matchHierarchy path (buildHierarchyMap routes) oracle).1
              routes := heq ▸ validH_rawInserts routes en henraw
          have hexact := mhtr_exact _ routes rl hval hids hm
          have hexists : ∃ r ∈ rl, r.id = id := by
            rw [← hexact] at hmem
            obtain ⟨r, hr, hid⟩ := List.mem_map.mp hmem
            exact ⟨r, hr, hid⟩
          have hcop : lookupS (prev.filter (fun p =>
              (matchHierarchy path (buildHierarchyMap routes) oracle).1.contains p.1)) id
              = none := by
            rw [lookupS_filter_contains, if_pos hc, hnone]
          obtain ⟨r, hr, hid, hlook⟩ := statesFold_fresh rl _ id hcop hexists
          exact ⟨rl, r, hm, hr, hid, hlook⟩
      · intro id hsome
        rcases statesFold_keys rl _ id hsome with h1 | h1
        · by_cases hc : (matchHierarchy path (buildHierarchyMap routes) oracle).1.contains
              id = true
          · exact hc
          · exfalso
            have hc2 : (matchHierarchy path (buildHierarchyMap routes)
                oracle).1.contains id = false := Bool.eq_false_iff.mpr hc
            rw [lookupS_filter_contains, hc2] at h1
            simp at h1
        · obtain ⟨r, hr, hid⟩ := h1
          rw [← hid]
          exact List.elem_eq_true_of_mem (mhtr_sub _ routes rl hm r hr)

theorem claim_C2_route_state_retention_witness :
    (routeIds soloRoute).Nodup ∧
    routerStateFromLocation soloRoute "/a" eqOracle (some demoPrev) =
      Except.ok (⟨["A"], some [],
        [("A", ⟨true, some [("k", 7)], false⟩)]⟩ : RouterStateM) ∧
    ((∀ id s, lookupS demoPrev id = some s →
        ((⟨["A"], some [], [("A", ⟨true, some [("k", 7)], false⟩)]⟩ :
          RouterStateM)).hierarchy.contains id = true →
        lookupS ((⟨["A"], some [], [("A", ⟨true, some [("k", 7)], false⟩)]⟩ :
          RouterStateM)).routeStates id = some s) ∧
      (∀ id, ((⟨["A"], some [], [("A", ⟨true, some [("k", 7)], false⟩)]⟩ :
          RouterStateM)).hierarchy.contains id = true → lookupS demoPrev id = none →
        ∃ l r, mapHierarchyToRoutes ((⟨["A"], some [],
            [("A", ⟨true, some [("k", 7)], false⟩)]⟩ :
            RouterStateM)).hierarchy soloRoute = Except.ok l ∧ r ∈ l ∧
          r.id = id ∧ lookupS ((⟨["A"], some [],
            [("A", ⟨true, some [("k", 7)], false⟩)]⟩ :
            RouterStateM)).routeStates id = some (freshState r)) ∧
      (∀ id, (lookupS ((⟨["A"], some [],
          [("A", ⟨true, some [("k", 7)], false⟩)]⟩ :
          RouterStateM)).routeStates id).isSome = true →
        ((⟨["A"], some [], [("A", ⟨true, some [("k", 7)], false⟩)]⟩ :
          RouterStateM)).hierarchy.contains id = true)) := by
  have hids : (routeIds soloRoute).Nodup := by
    simp [routeIds, soloRoute]
  have hok : routerStateFromLocation soloRoute "/a" eqOracle (some demoPrev) =
      Except.ok (⟨["A"], some [],
        [("A", ⟨true, some [("k", 7)], false⟩)]⟩ : RouterStateM) := by
    simp +decide [routerStateFromLocation, buildHierarchyMap, rawInserts, soloRoute,
      demoPrev, jsInsert, matchHierarchy, eqOracle, mapHierarchyToRoutes,
      routeStatesFrom, lookupS, freshState, needsPreloading, Route.id]
  exact ⟨hids, hok,
    claim_C2_route_state_retention soloRoute "/a" eqOracle demoPrev _ hids hok⟩

/-- C5 counterexample: a route with zero guards and zero resolver groups
entering the hierarchy is created with `completed: false`, not the claimed
immediately-completed `{loading: false, resolvedData: {}, completed: true}`. -/
theorem claim_C5_counterexample :
    routerStateFromLocation soloRoute "/a" eqOracle none =
      Except.ok (⟨["A"], some [],
        [("A", { loading := false, resolvedData := some [], completed := false })]⟩ :
        RouterStateM) ∧
    ({ loading := false, resolvedData := some [], completed := false } : RouteState) ≠
      { loading := false, resolvedData := some [], completed := true } := by
  constructor
  · simp +decide [routerStateFromLocation, buildHierarchyMap, rawInserts, soloRoute,
      jsInsert, matchHierarchy, eqOracle, mapHierarchyToRoutes, routeStatesFrom,
      lookupS, freshState, needsPreloading, Route.id]
  · decide

/-- C5 (amended): for every route declaring zero guards and zero resolver
groups, the RouteState created by `routerStateFromLocation` when the route's
id enters the hierarchy is `{loading: false, resolvedData: {}, completed: false}` —
loading is false because the route needs no preloading, but the state is not
immediately completed; `completed` becomes true only later through the
asynchronous preload write. -/
theorem claim_C5_fresh_state_not_completed (routes : List Route) (path : String)
    (oracle : Oracle) (prev : List (String × RouteState)) (st : RouterStateM)
    (l : List Route) (r : Route)
    (hok : routerStateFromLocation routes path oracle (some prev) = Except.ok st)
    (hl : mapHierarchyToRoutes st.hierarchy routes = Except.ok l)
    (hr : r ∈ l) (hnody : (l.map Route.id).Nodup)
    (hfresh : lookupS prev r.id = none)
    (hg : r.guards = 0) (hrv : r.resolvers = 0) :
    lookupS st.routeStates r.id =
      some { loading := false, resolvedData := some [], completed := false } := by
  simp only [routerStateFromLocation] at hok
  cases hm : mapHierarchyToRoutes
      (matchHierarchy path (buildHierarchyMap routes) oracle).1 routes with
  | error e => rw [hm] at hok; cases hok
  | ok rl =>
      rw [hm] at hok
      simp only [Except.ok.injEq] at hok
      subst hok
      simp only [routeStatesFrom, Option.getD]
      have hlrl : l = rl := by
        have h2 := hl.symm.trans hm
        exact Except.ok.inj h2
      subst hlrl
      have hcop : lookupS (prev.filter (fun p =>
          (matchHierarchy path (buildHierarchyMap routes) oracle).1.contains p.1)) r.id
          = none := by
        rw [lookupS_filter_contains]
        split
        · exact hfresh
        · rfl
      obtain ⟨r2, hr2, hid2, hlook⟩ := statesFold_fresh l _ r.id hcop ⟨r, hr, rfl⟩
      have hr2r : r2 = r := by
        have hinj := List.inj_on_of_nodup_map hnody
        exact hinj hr2 hr hid2
      rw [hlook, hr2r]
      simp [freshState, needsPreloading, hg, hrv]

theorem claim_C5_fresh_state_not_completed_witness :
    routerStateFromLocation soloRoute "/a" eqOracle (some []) =
      Except.ok (⟨["A"], some [],
        [("A", { loading := false, resolvedData := some [], completed := false })]⟩ :
        RouterStateM) ∧
    lookupS ((⟨["A"], some [],
        [("A", { loading := false, resolvedData := some [], completed := false })]⟩ :
        RouterStateM)).routeStates (Route.mk "A" "/a" 0 0 none).id =
      some { loading := false, resolvedData := some [], completed := false } := by
  have hok : routerStateFromLocation soloRoute "/a" eqOracle (some []) =
      Except.ok (⟨["A"], some [],
        [("A", { loading := false, resolvedData := some [], completed := false })]⟩ :
        RouterStateM) := by
    simp +decide [routerStateFromLocation, buildHierarchyMap, rawInserts, soloRoute,
      jsInsert, matchHierarchy, eqOracle, mapHierarchyToRoutes, routeStatesFrom,
      lookupS, freshState, needsPreloading, Route.id]
  have hl : mapHierarchyToRoutes ["A"] soloRoute =
      Except.ok [Route.mk "A" "/a" 0 0 none] := by
    simp +decide [mapHierarchyToRoutes, soloRoute]
  refine ⟨hok, ?_⟩
  exact claim_C5_fresh_state_not_completed soloRoute "/a" eqOracle [] _
    [Route.mk "A" "/a" 0 0 none] (Route.mk "A" "/a" 0 0 none) hok hl
    (List.mem_cons_self _ _) (by simp [Route.id]) rfl rfl rfl

/-! ### Declaration-order matching lemmas (C6) -/

theorem foldl_jsInsert_of_nodup (l : List (String × List String))
    (m0 : List (String × List String))
    (hnd : (l.map Prod.fst).Nodup)
    (hdisj : ∀ k ∈ l.map Prod.fst, m0.any (fun e => e.1 == k) = false) :
    l.foldl (fun m e => jsInsert m e.1 e.2) m0 = m0 ++ l := by
  induction l generalizing m0 with
  | nil => simp
  | cons e l ih =>
      simp only [List.foldl_cons]
      have hk : m0.any (fun e2 => e2.1 == e.1) = false :=
        hdisj e.1 (by simp)
      have hins : jsInsert m0 e.1 e.2 = m0 ++ [e] := by
        unfold jsInsert
        rw [if_neg (by rw [hk]; exact Bool.false_ne_true)]
      rw [hins]
      simp only [List.map_cons, List.nodup_cons] at hnd
      have hih := ih (m0 ++ [e]) hnd.2 ?_
      · rw [hih, List.append_assoc]
        rfl
      · intro k hkmem
        rw [List.any_append]
        have h1 : m0.any (fun e2 => e2.1 == k) = false := hdisj k (by simp [hkmem])
        have h2 : [e].any (fun e2 => e2.1 == k) = false := by
          simp only [List.any_cons, List.any_nil, Bool.or_false]
          rw [beq_eq_false_iff_ne]
          intro hcontr
          rw [hcontr] at hnd
          exact hnd.1 hkmem
        rw [h1, h2]
        rfl

theorem rawInserts_eq_declEntries (routes : List Route) :
    ((declEntries routes).map Prod.fst).Nodup → rawInserts routes = declEntries routes := by
  induction routes using rawInserts.induct with
  | case1 =>
      intro _
      simp [rawInserts, declEntries]
  | case2 id mt g rv children rest ih2 ih1 =>
      cases children with
      | some cs =>
          have ihcs : ((declEntries cs).map Prod.fst).Nodup →
              rawInserts cs = declEntries cs := ih2
          intro h
          simp only [declEntries, List.map_append, List.map_cons] at h
          have hchild := List.Nodup.of_append_left h
          have hconv : List.map Prod.fst (List.map
              (fun e => (mergePathsS mt e.1, id :: e.2)) (declEntries cs)) =
              List.map (mergePathsS mt) (List.map Prod.fst (declEntries cs)) := by
            rw [List.map_map, List.map_map]
            rfl
          have hcsNodup : ((declEntries cs).map Prod.fst).Nodup :=
            List.Nodup.of_map (mergePathsS mt) (hconv ▸ hchild)
          have hrest : ((declEntries rest).map Prod.fst).Nodup := by
            have h2 := List.Nodup.of_append_right h
            exact (List.nodup_cons.mp h2).2
          have hcseq : rawInserts cs = declEntries cs := ihcs hcsNodup
          have hfold : (rawInserts cs).foldl (fun m e => jsInsert m e.1 e.2) [] =
              declEntries cs := by
            rw [hcseq]
            rw [foldl_jsInsert_of_nodup (declEntries cs) [] hcsNodup
              (fun k _ => rfl)]
            rfl
          simp only [rawInserts, declEntries, hfold, ih1 hrest]
      | none =>
          intro h
          have hrest : ((declEntries rest).map Prod.fst).Nodup := by
            simp only [declEntries, List.nil_append, List.map_cons] at h
            exact (List.nodup_cons.mp h).2
          simp only [rawInserts, declEntries, ih1 hrest]

theorem matchHierarchy_first (path : String) (oracle : Oracle)
    (pre post : List (String × List String)) (e : String × List String)
    (hpre : ∀ p ∈ pre, templMatches path p.1 oracle = false)
    (he : templMatches path e.1 oracle = true) :
    matchHierarchy path (pre ++ e :: post) oracle =
      (e.2, entryParams path e.1 oracle) := by
  induction pre with
  | nil =>
      rcases e with ⟨t, hier⟩
      simp only [List.nil_append, matchHierarchy, entryParams]
      by_cases hstar : (t == "*") = true
      · rw [if_pos hstar, if_pos hstar]
      · rw [if_neg hstar, if_neg hstar]
        unfold templMatches at he
        rw [Bool.eq_false_iff.mpr hstar] at he
        simp only [Bool.false_or] at he
        cases horacle : oracle path t with
        | none => rw [horacle] at he; simp at he
        | some params => rfl
  | cons p pre ih =>
      rcases p with ⟨t, hier⟩
      have hp := hpre (t, hier) (List.mem_cons_self _ _)
      unfold templMatches at hp
      simp only [Bool.or_eq_false_iff] at hp
      simp only [List.cons_append, matchHierarchy]
      rw [if_neg (by rw [hp.1]; exact Bool.false_ne_true)]
      cases horacle : oracle path t with
      | some params =>
          rw [horacle] at hp
          simp at hp
      | none =>
          exact ih (fun p2 h2 => hpre p2 (List.mem_cons_of_mem _ h2))

/-- C6 counterexample: with two sibling routes both declaring template
`"/x"` (route `"A"` first, route `"B"` second), matching `"/x"` returns
hierarchy `["B"]`: the later declaration's hierarchy overwrote the map entry,
so the first-declared route does not determine the result. -/
theorem claim_C6_counterexample :
    matchHierarchy "/x" (buildHierarchyMap dupRoutes) eqOracle = (["B"], some []) ∧
    (["B"] : List String) ≠ ["A"] := by
  constructor
  · simp +decide [matchHierarchy, buildHierarchyMap, rawInserts, dupRoutes, jsInsert,
      eqOracle]
  · decide

/-- C6 (amended): when all merged templates of the tree are pairwise
distinct, the hierarchy map lists them exactly in declaration traversal
order, and matching returns the hierarchy and params of the first declared
entry whose template accepts the pathname, regardless of template
specificity; when two declarations share the identical merged template
string, the map entry instead keeps the first declaration's position but the
last declaration's hierarchy. -/
theorem claim_C6_first_declared_wins (routes : List Route) (path : String)
    (oracle : Oracle) (pre post : List (String × List String))
    (e : String × List String)
    (hNodup : ((declEntries routes).map Prod.fst).Nodup)
    (hsplit : declEntries routes = pre ++ e :: post)
    (hpre : ∀ p ∈ pre, templMatches path p.1 oracle = false)
    (he : templMatches path e.1 oracle = true) :
    buildHierarchyMap routes = declEntries routes ∧
    matchHierarchy path (buildHierarchyMap routes) oracle =
      (e.2, entryParams path e.1 oracle) := by
  have h1 : buildHierarchyMap routes = declEntries routes := by
    unfold buildHierarchyMap
    rw [rawInserts_eq_declEntries routes hNodup]
    rw [foldl_jsInsert_of_nodup (declEntries routes) [] hNodup (fun k _ => rfl)]
    rfl
  refine ⟨h1, ?_⟩
  rw [h1, hsplit]
  exact matchHierarchy_first path oracle pre post e hpre he

theorem claim_C6_first_declared_wins_witness :
    ((declEntries abRoutes).map Prod.fst).Nodup ∧
    declEntries abRoutes = [("/a", ["A"])] ++ ("/b", ["B"]) :: [] ∧
    (∀ p ∈ [(("/a" : String), (["A"] : List String))],
      templMatches "/b" p.1 eqOracle = false) ∧
    templMatches "/b" ("/b", ["B"]).1 eqOracle = true ∧
    buildHierarchyMap abRoutes = declEntries abRoutes ∧
    matchHierarchy "/b" (buildHierarchyMap abRoutes) eqOracle =
      (("/b", ["B"]).2, entryParams "/b" ("/b", ["B"]).1 eqOracle) := by
  have hNodup : ((declEntries abRoutes).map Prod.fst).Nodup := by
    simp +decide [declEntries, abRoutes]
  have hsplit : declEntries abRoutes = [("/a", ["A"])] ++ ("/b", ["B"]) :: [] := by
    simp [declEntries, abRoutes]
  have hpre : ∀ p ∈ [(("/a" : String), (["A"] : List String))],
      templMatches "/b" p.1 eqOracle = false := by decide
  have he : templMatches "/b" ("/b", ["B"]).1 eqOracle = true := by decide
  have hmain := claim_C6_first_declared_wins abRoutes "/b" eqOracle
    [("/a", ["A"])] [] ("/b", ["B"]) hNodup hsplit hpre he
  exact ⟨hNodup, hsplit, hpre, he, hmain.1, hmain.2⟩

end RealRouter
